import Mathlib

/-!
Shallow embedding of the git-metrics aggregation pipeline of
src/github_metrics.py and src/backend.py.

Datetimes are modelled as integer seconds since the epoch; calendar
dates (the result of datetime.date()) as integer day numbers. Python
dicts are modelled as insertion-ordered association lists, Python sets
as Finsets. Fallible fetches are modelled with Option: none is the
exception branch of the corresponding try/except.
-/

/-- Per-file diff stat as consumed by process_branch: file.filename,
file.additions, file.deletions; an absent additions or deletions value
models that field being None (github_metrics.py lines 99-104). -/
structure FileStat where
  filename : String
  additions : Option Nat
  deletions : Option Nat
  deriving DecidableEq

/-- One fetched commit: its sha, the resolved author login (none models
commit.author being None, github_metrics.py line 79), the author date
reduced to a calendar day (commit.commit.author.date.date(), line 80),
and the per-file stats, where none models a failing commit.files fetch
(the except branch at lines 105-107). -/
structure CommitRecord where
  sha : String
  author : Option String
  date : Int
  files : Option (List FileStat)
  deriving DecidableEq

/-- Author resolution: commit.author.login if commit.author else
"Unknown" (github_metrics.py line 79). -/
def authorOf (c : CommitRecord) : String := c.author.getD "Unknown"

/-- Per-user activity record (github_metrics.py lines 66-73): commits,
files_changed, lines_added, lines_removed, coding_days, and the
commits_per_day defaultdict modelled as an insertion-ordered
association list from day to count. -/
structure UserActivity where
  commits : Nat
  files_changed : Finset String
  lines_added : Nat
  lines_removed : Nat
  coding_days : Finset Int
  commits_per_day : List (Int × Nat)
  deriving DecidableEq

/-- The default entry a defaultdict creates on first access
(github_metrics.py lines 66-73 and 126-133). -/
def emptyActivity : UserActivity :=
  { commits := 0, files_changed := ∅, lines_added := 0, lines_removed := 0,
    coding_days := ∅, commits_per_day := [] }

/-- defaultdict(int) increment commits_per_day[d] += k: add to the
existing entry for day d, or append a new entry at the end when d is
absent, as a Python dict does in insertion order. -/
def bumpCount : List (Int × Nat) → Int → Nat → List (Int × Nat)
  | [], d, k => [(d, k)]
  | e :: rest, d, k =>
    if e.1 = d then (e.1, e.2 + k) :: rest else e :: bumpCount rest d k

/-- Body of the per-file loop (github_metrics.py lines 99-104): union
the filename into files_changed and add the non-None additions and
deletions to the line counters. -/
def processFile (a : UserActivity) (f : FileStat) : UserActivity :=
  { a with files_changed := insert f.filename a.files_changed,
           lines_added := a.lines_added + f.additions.getD 0,
           lines_removed := a.lines_removed + f.deletions.getD 0 }

/-- Counting one deduplicated commit for its author (github_metrics.py
lines 93-107): increment commits, add the commit's day to coding_days,
bump commits_per_day, then fold the file stats when commit.files is
available; a failing file fetch (files = none) contributes nothing
further and processing continues. -/
def countCommit (a : UserActivity) (c : CommitRecord) : UserActivity :=
  let a1 : UserActivity :=
    { a with commits := a.commits + 1,
             coding_days := insert c.date a.coding_days,
             commits_per_day := bumpCount a.commits_per_day c.date 1 }
  match c.files with
  | none => a1
  | some fs => fs.foldl processFile a1

/-- A per-user activity map: a Python dict in insertion order. -/
abbrev ActivityMap := List (String × UserActivity)

/-- defaultdict access m[u] followed by an in-place update f of that
entry: update the existing entry for u, or append f applied to the
fresh default entry when u is absent. -/
def updateUser : ActivityMap → String → (UserActivity → UserActivity) → ActivityMap
  | [], u, f => [(u, f emptyActivity)]
  | e :: rest, u, f =>
    if e.1 = u then (e.1, f e.2) :: rest else e :: updateUser rest u f

/-- The commit loop of process_branch (github_metrics.py lines 77-107),
threading the shared processed_commits set explicitly: a commit whose
sha is already in the set is skipped (line 83), otherwise its sha is
added (line 90) and it is counted for its author (lines 93-107). -/
def processCommits : List CommitRecord → ActivityMap → Finset String →
    ActivityMap × Finset String
  | [], acc, processed => (acc, processed)
  | c :: rest, acc, processed =>
    if c.sha ∈ processed then processCommits rest acc processed
    else
      processCommits rest (updateUser acc (authorOf c) (fun a => countCommit a c))
        (insert c.sha processed)

/-- process_branch (github_metrics.py lines 52-111): fetch = none models
the commit-list fetch failing outright (the except branch at lines
108-109), in which case the still-empty branch_activity map is
returned and the shared set is untouched. -/
def process_branch (fetch : Option (List CommitRecord)) (processed : Finset String) :
    ActivityMap × Finset String :=
  match fetch with
  | none => ([], processed)
  | some cs => processCommits cs [] processed

/-- Per-field merge of one user's branch metrics into that user's global
entry (get_all_user_metrics, github_metrics.py lines 141-147): sum
commits, union files_changed, sum lines_added and lines_removed, union
coding_days, and add commits_per_day counts per date. -/
def mergeActivity (a b : UserActivity) : UserActivity :=
  { commits := a.commits + b.commits,
    files_changed := a.files_changed ∪ b.files_changed,
    lines_added := a.lines_added + b.lines_added,
    lines_removed := a.lines_removed + b.lines_removed,
    coding_days := a.coding_days ∪ b.coding_days,
    commits_per_day :=
      b.commits_per_day.foldl (fun m e => bumpCount m e.1 e.2) a.commits_per_day }

/-- Merging one user's partial metrics into the global defaultdict. -/
def mergeUser (g : ActivityMap) (u : String) (b : UserActivity) : ActivityMap :=
  updateUser g u (fun a => mergeActivity a b)

/-- Merging one branch-partial map into the global map (github_metrics.py
lines 140-147). -/
def mergeInto (g : ActivityMap) (part : ActivityMap) : ActivityMap :=
  part.foldl (fun g e => mergeUser g e.1 e.2) g

/-- Merging the collected partial maps in collection order
(github_metrics.py lines 138-147), starting from the empty global
defaultdict. -/
def mergeMaps (parts : List ActivityMap) : ActivityMap := parts.foldl mergeInto []

/-- Sequential (interleaving-free) execution of the branch workers of
get_all_user_metrics: each branch runs to completion against the shared
processed-commits set before the next starts, and the partial maps are
collected in order together with the final state of the shared set. -/
def runBranches : List (Option (List CommitRecord)) → Finset String →
    List ActivityMap × Finset String
  | [], processed => ([], processed)
  | f :: rest, processed =>
    let r1 := process_branch f processed
    let r2 := runBranches rest r1.2
    (r1.1 :: r2.1, r2.2)

/-- get_all_user_metrics (github_metrics.py lines 113-149) under the
sequential schedule: process every branch against the shared set
starting from the empty set, then merge all partial maps. -/
def get_all_user_metrics (fetches : List (Option (List CommitRecord))) : ActivityMap :=
  mergeMaps (runBranches fetches ∅).1

/-- A repository branch: its name and the author date (in seconds) of
its tip commit; none models branch.commit.commit.author.date raising
(the except branch of get_recent_branches, lines 45-47). -/
structure Branch where
  name : String
  tip : Option Int
  deriving DecidableEq

/-- get_recent_branches (github_metrics.py lines 25-50): keep the
branches whose tip commit author date is at least now - days days ago;
a branch whose tip lookup fails is skipped. No upper bound is applied
and the caller's aggregation window is not consulted. -/
def get_recent_branches (branches : List Branch) (now : Int) (days : Int) : List Branch :=
  branches.filter (fun b =>
    match b.tip with
    | some d => decide (now - days * 86400 ≤ d)
    | none => false)

/-- Modelled from the spec (section 4.1): the claimed branch-selector
contract, returning the branches whose tip author date lies within the
inclusive window. Declared only to compare the implemented selector
against the claimed one. -/
def branchesInWindowSpec (branches : List Branch) (winStart winEnd : Int) : List Branch :=
  branches.filter (fun b =>
    match b.tip with
    | some d => decide (winStart ≤ d) && decide (d ≤ winEnd)
    | none => false)

/-- Date window computed inside get_github_metrics (github_metrics.py
lines 215-217): always the 220 days up to the current time. The run
entry point takes only the repository name and token; no date
parameters exist and sys.argv is never read. -/
def get_github_metrics_window (now : Int) : Int × Int := (now - 220 * 86400, now)

/-- Window the backend derives from the request's from and to dates
(backend.py lines 32-33): midnight of the from-date through 23:59:59 of
the to-date; fromDay and toDay are UTC day numbers. -/
def backend_request_window (fromDay toDay : Int) : Int × Int :=
  (fromDay * 86400, toDay * 86400 + 86400 - 1)

/-- Output directory constant shared by both modules. -/
def METRICS_DIR : String := "metrics_output"

/-- The path the backend reads (backend.py line 12). -/
def OVERALL_METRICS_FILE : String := METRICS_DIR ++ "/overall_metrics.csv"

/-- The two paths save_all_user_metrics_to_csv writes (github_metrics.py
lines 174 and 186): the overall table is written without a .csv
extension. -/
def save_all_user_metrics_files (output_dir : String) : List String :=
  [output_dir ++ "/overall_metrics", output_dir ++ "/commits_per_day.csv"]

/-- Outcome of the existence check in the /metrics endpoint. -/
inductive MetricsResponse where
  | rows : MetricsResponse
  | notFound : MetricsResponse
  deriving DecidableEq

/-- Existence check of the /metrics endpoint (backend.py lines 44-45):
the 404 file-not-found response when the overall metrics file is absent
from the files on disk, otherwise the summary rows are served. -/
def get_metrics_file_check (existing : List String) : MetricsResponse :=
  if OVERALL_METRICS_FILE ∈ existing then MetricsResponse.rows
  else MetricsResponse.notFound

/-- Sum of the values of a commits_per_day mapping
(sum(commits_per_day.values())). -/
def cpdValuesSum : List (Int × Nat) → Nat
  | [] => 0
  | e :: rest => e.2 + cpdValuesSum rest

/-- Total count recorded for day d in a commits_per_day mapping: the sum
of the entries for d. On the maps the program produces (whose keys are
distinct) this is exactly the dict lookup with default 0. -/
def cpdCount : List (Int × Nat) → Int → Nat
  | [], _ => 0
  | e :: rest, d => (if e.1 = d then e.2 else 0) + cpdCount rest d

/-- The set of keys of a commits_per_day mapping
(commits_per_day.keys()). -/
def cpdKeysOf (m : List (Int × Nat)) : Finset Int := (m.map Prod.fst).toFinset

/-- Total number of commits recorded across all users of an activity
map. -/
def totalCommitsMap : ActivityMap → Nat
  | [] => 0
  | e :: rest => e.2.commits + totalCommitsMap rest

/-- All commit shas occurring in one branch's fetched list, accumulated
onto s. -/
def branchShas (cs : List CommitRecord) (s : Finset String) : Finset String :=
  cs.foldl (fun t c => insert c.sha t) s

/-- All distinct commit shas across the branch fetches, accumulated onto
s; a failed fetch contributes none. -/
def allShas : List (Option (List CommitRecord)) → Finset String → Finset String
  | [], s => s
  | none :: rest, s => allShas rest s
  | some cs :: rest, s => allShas rest (branchShas cs s)

/-- One branch worker of the thread pool in get_all_user_metrics,
reduced to its loop state: the commits still to process, the recorded
outcome of the dedup membership check of the head commit once that
check has run, and the worker's private branch map. -/
structure WorkerState where
  todo : List CommitRecord
  checked : Option Bool
  acc : ActivityMap
  deriving DecidableEq

/-- One atomic step of a worker against the shared processed-commits
set. The membership check (github_metrics.py line 83) and the
claim-and-count (lines 90-107) are separate steps, exactly as they are
separate statements in the source with no lock held across them. -/
def workerStep (processed : Finset String) (w : WorkerState) : Finset String × WorkerState :=
  match w.todo, w.checked with
  | [], _ => (processed, w)
  | c :: _, none => (processed, { w with checked := some (decide (c.sha ∈ processed)) })
  | _ :: rest, some true => (processed, { w with todo := rest, checked := none })
  | c :: rest, some false =>
    (insert c.sha processed,
     { todo := rest, checked := none,
       acc := updateUser w.acc (authorOf c) (fun a => countCommit a c) })

/-- Two branch workers racing on the shared processed-commits set. -/
structure RaceState where
  processed : Finset String
  wa : WorkerState
  wb : WorkerState
  deriving DecidableEq

/-- Scheduler step: true runs worker A for one step, false runs worker
B. -/
def raceStep (s : RaceState) (who : Bool) : RaceState :=
  if who then
    let r := workerStep s.processed s.wa
    { s with processed := r.1, wa := r.2 }
  else
    let r := workerStep s.processed s.wb
    { s with processed := r.1, wb := r.2 }

/-- Run a schedule (an interleaving of the two workers) from a state. -/
def raceRun (sched : List Bool) (s : RaceState) : RaceState := sched.foldl raceStep s

/-- Initial state: empty shared set, each worker holding its branch's
fetched commit list and an empty private map. -/
def raceInit (csA csB : List CommitRecord) : RaceState :=
  { processed := ∅,
    wa := { todo := csA, checked := none, acc := [] },
    wb := { todo := csB, checked := none, acc := [] } }

/-- The merge phase applied to the two workers' partial maps, as
get_all_user_metrics does after the join. -/
def raceMerged (s : RaceState) : ActivityMap := mergeMaps [s.wa.acc, s.wb.acc]

/-- A commit record by alice whose sha appears on both racing branches. -/
def sharedCommit : CommitRecord :=
  { sha := "c1", author := some "alice", date := 1, files := none }

/-- The losing interleaving: A checks (line 83), B checks, A inserts and
counts (lines 90-95), B inserts and counts. -/
def raceSchedule : List Bool := [true, false, true, false]

/-- Final state of the race of the two one-commit branches that both
carry sharedCommit. -/
def raceFinal : RaceState := raceRun raceSchedule (raceInit [sharedCommit] [sharedCommit])

/-- C10: after a successful aggregation run the overall table is written
to metrics_output/overall_metrics, without the .csv extension, while the
metrics query endpoint checks metrics_output/overall_metrics.csv; on a
run in which only the aggregation script wrote the output directory the
existence check therefore fails and the endpoint answers with the
file-not-found error response. -/
theorem C10_overall_metrics_path_mismatch :
    OVERALL_METRICS_FILE ∉ save_all_user_metrics_files METRICS_DIR ∧
    get_metrics_file_check (save_all_user_metrics_files METRICS_DIR) =
      MetricsResponse.notFound := by decide

/-- C4: the run entry point takes no from or to date at all; evaluated
at a request for the window 2024-01-01 (day 19723) to 2024-01-31 (day
19753) issued at 2025-01-01 00:00:00 UTC (second 1735689600), the
window it aggregates over is the fixed 220-day lookback from the
current time and differs from the caller-supplied window extended
through 23:59:59 of the to date. -/
theorem C4_window_is_fixed_lookback :
    get_github_metrics_window 1735689600 ≠ backend_request_window 19723 19753 ∧
    get_github_metrics_window 1735689600 = (1735689600 - 220 * 86400, 1735689600) :=
  ⟨by decide, rfl⟩

/-- C3 counterexample: a branch whose tip commit (100 days old) lies
inside the 220-day window the aggregation run uses is in the subset the
claim describes, yet the branch selector, called with its actual
argument days = 90, does not return it: only a lower cutoff derived
from the current time is applied, not the window's bounds. -/
def staleBranch : Branch := { name := "feature", tip := some (1735689600 - 100 * 86400) }

/-- C3 counterexample: the selector does not return exactly the branches
whose tip falls within the caller's window; staleBranch is inside the
window [now - 220 days, now] but excluded by get_recent_branches. -/
theorem C3_window_bounds_not_applied :
    staleBranch ∈ branchesInWindowSpec [staleBranch] (1735689600 - 220 * 86400) 1735689600 ∧
    staleBranch ∉ get_recent_branches [staleBranch] 1735689600 90 := by decide

/-- C3 amended: for every repository branch list, current time and days
argument, the branch selector returns exactly the branches whose tip
commit author date was resolved and is at least now - days days ago; it
applies only this lower cutoff derived from the current time and the
days argument, not the caller's date window, and no upper bound. -/
theorem C3_selector_lower_cutoff_only (branches : List Branch) (now days : Int)
    (b : Branch) :
    b ∈ get_recent_branches branches now days ↔
      b ∈ branches ∧ ∃ d, b.tip = some d ∧ now - days * 86400 ≤ d := by
  simp only [get_recent_branches, List.mem_filter]
  constructor
  · rintro ⟨hmem, hp⟩
    refine ⟨hmem, ?_⟩
    cases htip : b.tip with
    | none => rw [htip] at hp; simp at hp
    | some d =>
      rw [htip] at hp
      exact ⟨d, rfl, by simpa using hp⟩
  · rintro ⟨hmem, d, htip, hle⟩
    exact ⟨hmem, by rw [htip]; simpa using hle⟩

/-- C9: a branch whose commit-list fetch fails entirely contributes an
empty per-user map and leaves the shared set untouched; the remaining
branches are still processed against the same state, and the merged
global result is exactly what the remaining branches produce. -/
theorem C9_failed_branch_contributes_empty_map (rest : List (Option (List CommitRecord)))
    (p : Finset String) :
    process_branch none p = ([], p) ∧
    (runBranches (none :: rest) p).1 = [] :: (runBranches rest p).1 ∧
    (runBranches (none :: rest) p).2 = (runBranches rest p).2 ∧
    get_all_user_metrics (none :: rest) = get_all_user_metrics rest :=
  ⟨rfl, rfl, rfl, rfl⟩

/-- C1 counterexample: under the interleaving in which both workers pass
the dedup membership check before either inserts, a commit that appears
on two branches is counted twice in the merged global totals, although
only one distinct commit sha exists; the claim's exactly-once property
fails on a concurrent execution of the code's separate check and insert
steps. -/
theorem C1_race_counts_shared_commit_twice :
    totalCommitsMap (raceMerged raceFinal) = 2 ∧
    (allShas [some [sharedCommit], some [sharedCommit]] ∅).card = 1 := by decide

/-- C2: the membership check (line 83) and the insertion (line 90) on
the shared dedup set are separate un-synchronized steps, not one atomic
claim operation; in the interleaving where both workers check before
either inserts, each of the two racing workers counts the same commit,
refuting that at most one of them can. -/
theorem C2_both_workers_count_same_commit :
    totalCommitsMap raceFinal.wa.acc = 1 ∧
    totalCommitsMap raceFinal.wb.acc = 1 ∧
    raceFinal.processed = insert "c1" ∅ := by decide

theorem cpdCount_bumpCount (m : List (Int × Nat)) (d : Int) (k : Nat) (q : Int) :
    cpdCount (bumpCount m d k) q = cpdCount m q + (if d = q then k else 0) := by
  induction m with
  | nil => by_cases hdq : d = q <;> simp [bumpCount, cpdCount, hdq]
  | cons e rest ih =>
    by_cases h : e.1 = d
    · by_cases hdq : d = q
      all_goals simp [bumpCount, h, cpdCount, hdq]
      all_goals omega
    · simp only [bumpCount, if_neg h, cpdCount, ih]
      omega

theorem cpdValuesSum_bumpCount (m : List (Int × Nat)) (d : Int) (k : Nat) :
    cpdValuesSum (bumpCount m d k) = cpdValuesSum m + k := by
  induction m with
  | nil => simp [bumpCount, cpdValuesSum]
  | cons e rest ih =>
    by_cases h : e.1 = d
    · simp [bumpCount, h, cpdValuesSum]
      omega
    · simp only [bumpCount, if_neg h, cpdValuesSum, ih]
      omega

theorem keys_bumpCount (m : List (Int × Nat)) (d : Int) (k : Nat) :
    (bumpCount m d k).map Prod.fst =
      if d ∈ m.map Prod.fst then m.map Prod.fst else m.map Prod.fst ++ [d] := by
  induction m with
  | nil => simp [bumpCount]
  | cons e rest ih =>
    by_cases h : e.1 = d
    · simp [bumpCount, h]
    · have hne : d ≠ e.1 := fun hh => h hh.symm
      by_cases hd : d ∈ rest.map Prod.fst
      · simp [bumpCount, h, ih, hd, hne]
      · simp [bumpCount, h, ih, hd, hne]

theorem cpdKeysOf_bumpCount (m : List (Int × Nat)) (d : Int) (k : Nat) :
    cpdKeysOf (bumpCount m d k) = insert d (cpdKeysOf m) := by
  unfold cpdKeysOf
  rw [keys_bumpCount]
  by_cases hd : d ∈ m.map Prod.fst
  · rw [if_pos hd]
    exact (Finset.insert_eq_self.mpr (List.mem_toFinset.mpr hd)).symm
  · rw [if_neg hd]
    simp [List.toFinset_append, Finset.union_comm, ← Finset.insert_eq]

theorem nodup_keys_bumpCount (m : List (Int × Nat)) (d : Int) (k : Nat)
    (h : (m.map Prod.fst).Nodup) : ((bumpCount m d k).map Prod.fst).Nodup := by
  rw [keys_bumpCount]
  by_cases hd : d ∈ m.map Prod.fst
  · simpa [hd] using h
  · simp [hd, List.nodup_append, h]

theorem cpdCount_foldl_bump (entries : List (Int × Nat)) :
    ∀ (m0 : List (Int × Nat)) (q : Int),
      cpdCount (entries.foldl (fun m e => bumpCount m e.1 e.2) m0) q =
        cpdCount m0 q + cpdCount entries q := by
  induction entries with
  | nil => intro m0 q; simp [cpdCount]
  | cons e rest ih =>
    intro m0 q
    rw [List.foldl_cons, ih, cpdCount_bumpCount]
    simp only [cpdCount]
    omega

theorem cpdValuesSum_foldl_bump (entries : List (Int × Nat)) :
    ∀ m0 : List (Int × Nat),
      cpdValuesSum (entries.foldl (fun m e => bumpCount m e.1 e.2) m0) =
        cpdValuesSum m0 + cpdValuesSum entries := by
  induction entries with
  | nil => intro m0; simp [cpdValuesSum]
  | cons e rest ih =>
    intro m0
    rw [List.foldl_cons, ih, cpdValuesSum_bumpCount]
    simp only [cpdValuesSum]
    omega

theorem cpdKeysOf_foldl_bump (entries : List (Int × Nat)) :
    ∀ m0 : List (Int × Nat),
      cpdKeysOf (entries.foldl (fun m e => bumpCount m e.1 e.2) m0) =
        cpdKeysOf m0 ∪ cpdKeysOf entries := by
  induction entries with
  | nil => intro m0; simp [cpdKeysOf]
  | cons e rest ih =>
    intro m0
    rw [List.foldl_cons, ih, cpdKeysOf_bumpCount]
    simp [cpdKeysOf, Finset.insert_union, Finset.union_insert]

theorem nodup_keys_foldl_bump (entries : List (Int × Nat)) :
    ∀ m0 : List (Int × Nat), (m0.map Prod.fst).Nodup →
      ((entries.foldl (fun m e => bumpCount m e.1 e.2) m0).map Prod.fst).Nodup := by
  induction entries with
  | nil => intro m0 h; exact h
  | cons e rest ih =>
    intro m0 h
    rw [List.foldl_cons]
    exact ih _ (nodup_keys_bumpCount m0 e.1 e.2 h)

theorem foldl_processFile_commits (fs : List FileStat) :
    ∀ a : UserActivity, (fs.foldl processFile a).commits = a.commits := by
  induction fs with
  | nil => intro a; rfl
  | cons f rest ih => intro a; rw [List.foldl_cons, ih]; rfl

theorem foldl_processFile_coding_days (fs : List FileStat) :
    ∀ a : UserActivity, (fs.foldl processFile a).coding_days = a.coding_days := by
  induction fs with
  | nil => intro a; rfl
  | cons f rest ih => intro a; rw [List.foldl_cons, ih]; rfl

theorem foldl_processFile_cpd (fs : List FileStat) :
    ∀ a : UserActivity, (fs.foldl processFile a).commits_per_day = a.commits_per_day := by
  induction fs with
  | nil => intro a; rfl
  | cons f rest ih => intro a; rw [List.foldl_cons, ih]; rfl

theorem countCommit_commits (a : UserActivity) (c : CommitRecord) :
    (countCommit a c).commits = a.commits + 1 := by
  cases hf : c.files with
  | none => simp [countCommit, hf]
  | some fs => simp [countCommit, hf, foldl_processFile_commits]

theorem countCommit_coding_days (a : UserActivity) (c : CommitRecord) :
    (countCommit a c).coding_days = insert c.date a.coding_days := by
  cases hf : c.files with
  | none => simp [countCommit, hf]
  | some fs => simp [countCommit, hf, foldl_processFile_coding_days]

theorem countCommit_cpd (a : UserActivity) (c : CommitRecord) :
    (countCommit a c).commits_per_day = bumpCount a.commits_per_day c.date 1 := by
  cases hf : c.files with
  | none => simp [countCommit, hf]
  | some fs => simp [countCommit, hf, foldl_processFile_cpd]

/-- C8: a commit whose per-file diff-stat fetch fails (files = none) is
still attributed to its author: processing moves on to the rest of the
commit list with the commit claimed in the dedup set, the author's
commits counter is incremented, the commit's date joins coding_days and
its commits_per_day count for that date rises by one, while
files_changed, lines_added and lines_removed receive no contribution
from the commit. -/
theorem C8_failed_filestat_commit_still_counted (acc : ActivityMap)
    (processed : Finset String) (c : CommitRecord) (rest : List CommitRecord)
    (a : UserActivity) (h1 : c.files = none) (h2 : c.sha ∉ processed) :
    processCommits (c :: rest) acc processed =
      processCommits rest (updateUser acc (authorOf c) (fun a => countCommit a c))
        (insert c.sha processed) ∧
    (countCommit a c).commits = a.commits + 1 ∧
    (countCommit a c).coding_days = insert c.date a.coding_days ∧
    cpdCount (countCommit a c).commits_per_day c.date =
      cpdCount a.commits_per_day c.date + 1 ∧
    (countCommit a c).files_changed = a.files_changed ∧
    (countCommit a c).lines_added = a.lines_added ∧
    (countCommit a c).lines_removed = a.lines_removed := by
  refine ⟨by rw [processCommits, if_neg h2], countCommit_commits a c,
    countCommit_coding_days a c, ?_, ?_, ?_, ?_⟩
  · rw [countCommit_cpd, cpdCount_bumpCount]
    simp
  · simp [countCommit, h1]
  · simp [countCommit, h1]
  · simp [countCommit, h1]

/-- Concrete commit with a failing file-stat fetch, for the C8 witness. -/
def lostStatsCommit : CommitRecord :=
  { sha := "d4", author := some "carol", date := 7, files := none }

/-- Concrete prior activity for the C8 witness. -/
def priorActivity : UserActivity :=
  { commits := 2, files_changed := insert "a.py" ∅, lines_added := 5,
    lines_removed := 1, coding_days := insert 6 ∅, commits_per_day := [(6, 2)] }

/-- C8 witness: the theorem instantiated at a concrete commit whose
file-stat fetch fails, against a concrete prior state. -/
theorem C8_witness :
    lostStatsCommit.files = none ∧ lostStatsCommit.sha ∉ (∅ : Finset String) ∧
    (processCommits [lostStatsCommit] [] ∅ =
      processCommits [] (updateUser [] (authorOf lostStatsCommit)
        (fun a => countCommit a lostStatsCommit)) (insert lostStatsCommit.sha ∅) ∧
    (countCommit priorActivity lostStatsCommit).commits = priorActivity.commits + 1 ∧
    (countCommit priorActivity lostStatsCommit).coding_days =
      insert lostStatsCommit.date priorActivity.coding_days ∧
    cpdCount (countCommit priorActivity lostStatsCommit).commits_per_day
        lostStatsCommit.date =
      cpdCount priorActivity.commits_per_day lostStatsCommit.date + 1 ∧
    (countCommit priorActivity lostStatsCommit).files_changed =
      priorActivity.files_changed ∧
    (countCommit priorActivity lostStatsCommit).lines_added =
      priorActivity.lines_added ∧
    (countCommit priorActivity lostStatsCommit).lines_removed =
      priorActivity.lines_removed) :=
  ⟨rfl, by decide,
    C8_failed_filestat_commit_still_counted [] ∅ lostStatsCommit [] priorActivity
      rfl (by decide)⟩

theorem updateUser_pres (P : UserActivity → Prop) (f : UserActivity → UserActivity)
    (hemp : P (f emptyActivity)) (hf : ∀ a, P a → P (f a)) :
    ∀ (m : ActivityMap) (u : String), (∀ e ∈ m, P e.2) →
      ∀ e ∈ updateUser m u f, P e.2 := by
  intro m
  induction m with
  | nil =>
    intro u _ e he
    simp only [updateUser, List.mem_singleton] at he
    subst he
    exact hemp
  | cons x rest ih =>
    intro u hm e he
    by_cases hx : x.1 = u
    · simp only [updateUser, if_pos hx, List.mem_cons] at he
      rcases he with rfl | he
      · exact hf x.2 (hm x (List.mem_cons_self x rest))
      · exact hm e (List.mem_cons_of_mem x he)
    · simp only [updateUser, if_neg hx, List.mem_cons] at he
      rcases he with rfl | he
      · exact hm _ (List.mem_cons_self _ rest)
      · exact ih u (fun d hd => hm d (List.mem_cons_of_mem x hd)) e he

theorem processCommits_pres (P : UserActivity → Prop)
    (hce : ∀ c, P (countCommit emptyActivity c))
    (hc : ∀ a c, P a → P (countCommit a c)) :
    ∀ (cs : List CommitRecord) (acc : ActivityMap) (processed : Finset String),
      (∀ e ∈ acc, P e.2) → ∀ e ∈ (processCommits cs acc processed).1, P e.2 := by
  intro cs
  induction cs with
  | nil => intro acc processed hacc e he; exact hacc e he
  | cons c rest ih =>
    intro acc processed hacc e he
    by_cases hmem : c.sha ∈ processed
    · rw [processCommits, if_pos hmem] at he
      exact ih acc processed hacc e he
    · rw [processCommits, if_neg hmem] at he
      exact ih _ _
        (updateUser_pres P (fun a => countCommit a c) (hce c) (fun a ha => hc a c ha)
          acc (authorOf c) hacc) e he

theorem runBranches_pres (P : UserActivity → Prop)
    (hce : ∀ c, P (countCommit emptyActivity c))
    (hc : ∀ a c, P a → P (countCommit a c)) :
    ∀ (fetches : List (Option (List CommitRecord))) (p : Finset String),
      ∀ part ∈ (runBranches fetches p).1, ∀ e ∈ part, P e.2 := by
  intro fetches
  induction fetches with
  | nil => intro p part hpart; simp [runBranches] at hpart
  | cons f rest ih =>
    intro p part hpart
    simp only [runBranches, List.mem_cons] at hpart
    rcases hpart with rfl | hpart
    · cases f with
      | none => intro e he; simp [process_branch] at he
      | some cs =>
        exact processCommits_pres P hce hc cs [] p (by simp)
    · exact ih _ part hpart

theorem mergeInto_pres (P : UserActivity → Prop)
    (hme : ∀ b, P b → P (mergeActivity emptyActivity b))
    (hm2 : ∀ a b, P a → P b → P (mergeActivity a b)) :
    ∀ (part g : ActivityMap), (∀ e ∈ g, P e.2) → (∀ e ∈ part, P e.2) →
      ∀ e ∈ mergeInto g part, P e.2 := by
  intro part
  induction part with
  | nil => intro g hg _ e he; exact hg e he
  | cons x rest ih =>
    intro g hg hpart e he
    rw [mergeInto, List.foldl_cons] at he
    have hg2 : ∀ e ∈ mergeUser g x.1 x.2, P e.2 :=
      updateUser_pres P (fun a => mergeActivity a x.2)
        (hme x.2 (hpart x (List.mem_cons_self x rest)))
        (fun a ha => hm2 a x.2 ha (hpart x (List.mem_cons_self x rest)))
        g x.1 hg
    exact ih (mergeUser g x.1 x.2) hg2
      (fun d hd => hpart d (List.mem_cons_of_mem x hd)) e he

theorem mergeMaps_pres (P : UserActivity → Prop)
    (hme : ∀ b, P b → P (mergeActivity emptyActivity b))
    (hm2 : ∀ a b, P a → P b → P (mergeActivity a b)) :
    ∀ (parts : List ActivityMap), (∀ part ∈ parts, ∀ e ∈ part, P e.2) →
      ∀ e ∈ mergeMaps parts, P e.2 := by
  have key : ∀ (parts : List ActivityMap) (g : ActivityMap), (∀ e ∈ g, P e.2) →
      (∀ part ∈ parts, ∀ e ∈ part, P e.2) → ∀ e ∈ parts.foldl mergeInto g, P e.2 := by
    intro parts
    induction parts with
    | nil => intro g hg _ e he; exact hg e he
    | cons q rest ih =>
      intro g hg hparts e he
      rw [List.foldl_cons] at he
      exact ih (mergeInto g q)
        (mergeInto_pres P hme hm2 q g hg (hparts q (List.mem_cons_self q rest)))
        (fun r hr => hparts r (List.mem_cons_of_mem q hr)) e he
  intro parts hparts e he
  exact key parts [] (by simp) hparts e he

/-- C5: for every user entry of every map the pipeline produces, the
private per-branch partial maps as well as the merged global map, the
commits counter equals the sum of the values of that user's
commits_per_day mapping. -/
theorem C5_commits_eq_sum_per_day (fetches : List (Option (List CommitRecord)))
    (m : ActivityMap) (e : String × UserActivity)
    (hm : m ∈ (runBranches fetches ∅).1 ∨ m = get_all_user_metrics fetches)
    (he : e ∈ m) :
    e.2.commits = cpdValuesSum e.2.commits_per_day := by
  have hce : ∀ c, (countCommit emptyActivity c).commits =
      cpdValuesSum (countCommit emptyActivity c).commits_per_day := by
    intro c
    rw [countCommit_commits, countCommit_cpd, cpdValuesSum_bumpCount]
    simp [emptyActivity, cpdValuesSum]
  have hc : ∀ a c, a.commits = cpdValuesSum a.commits_per_day →
      (countCommit a c).commits = cpdValuesSum (countCommit a c).commits_per_day := by
    intro a c ha
    rw [countCommit_commits, countCommit_cpd, cpdValuesSum_bumpCount, ha]
  rcases hm with hm | rfl
  · exact runBranches_pres
      (fun a => a.commits = cpdValuesSum a.commits_per_day) hce hc fetches ∅ m hm e he
  · have hme : ∀ b : UserActivity, b.commits = cpdValuesSum b.commits_per_day →
        (mergeActivity emptyActivity b).commits =
          cpdValuesSum (mergeActivity emptyActivity b).commits_per_day := by
      intro b hb
      simp [mergeActivity, cpdValuesSum_foldl_bump, emptyActivity, cpdValuesSum, hb]
    have hm2 : ∀ a b : UserActivity, a.commits = cpdValuesSum a.commits_per_day →
        b.commits = cpdValuesSum b.commits_per_day →
        (mergeActivity a b).commits =
          cpdValuesSum (mergeActivity a b).commits_per_day := by
      intro a b ha hb
      simp [mergeActivity, cpdValuesSum_foldl_bump, ha, hb]
    exact mergeMaps_pres (fun a => a.commits = cpdValuesSum a.commits_per_day)
      hme hm2 (runBranches fetches ∅).1
      (runBranches_pres (fun a => a.commits = cpdValuesSum a.commits_per_day)
        hce hc fetches ∅) e he

/-- Concrete commit for the C5 and C6 witnesses. -/
def exCommit : CommitRecord :=
  { sha := "a1", author := some "alice", date := 3, files := none }

/-- Concrete single-branch fetch list for the C5 and C6 witnesses. -/
def exFetches : List (Option (List CommitRecord)) := [some [exCommit]]

/-- The partial map the single branch of exFetches produces. -/
def exPartial : ActivityMap := (process_branch (some [exCommit]) ∅).1

/-- The user entry that partial map holds. -/
def exEntry : String × UserActivity := ("alice", countCommit emptyActivity exCommit)

/-- C5 witness: the invariant evaluated on the concrete partial map of a
one-commit branch. -/
theorem C5_witness :
    (exPartial ∈ (runBranches exFetches ∅).1 ∨ exPartial = get_all_user_metrics exFetches) ∧
    exEntry ∈ exPartial ∧
    exEntry.2.commits = cpdValuesSum exEntry.2.commits_per_day :=
  ⟨Or.inl (by decide), by decide,
    C5_commits_eq_sum_per_day exFetches exPartial exEntry (Or.inl (by decide)) (by decide)⟩

/-- C6: for every user entry of every map the pipeline produces, the
number of dates in coding_days equals the number of keys of
commits_per_day, and indeed coding_days is exactly the key set of
commits_per_day: every date with a recorded count is a coding day and
vice versa. -/
theorem C6_coding_days_match_cpd_keys (fetches : List (Option (List CommitRecord)))
    (m : ActivityMap) (e : String × UserActivity)
    (hm : m ∈ (runBranches fetches ∅).1 ∨ m = get_all_user_metrics fetches)
    (he : e ∈ m) :
    e.2.coding_days.card = (e.2.commits_per_day.map Prod.fst).length ∧
    e.2.coding_days = cpdKeysOf e.2.commits_per_day := by
  have hce : ∀ c, (countCommit emptyActivity c).coding_days =
        cpdKeysOf (countCommit emptyActivity c).commits_per_day ∧
      ((countCommit emptyActivity c).commits_per_day.map Prod.fst).Nodup := by
    intro c
    rw [countCommit_coding_days, countCommit_cpd, cpdKeysOf_bumpCount]
    refine ⟨by simp [emptyActivity, cpdKeysOf], ?_⟩
    exact nodup_keys_bumpCount _ _ _ (by simp [emptyActivity])
  have hc : ∀ a c,
      (a.coding_days = cpdKeysOf a.commits_per_day ∧
        (a.commits_per_day.map Prod.fst).Nodup) →
      (countCommit a c).coding_days = cpdKeysOf (countCommit a c).commits_per_day ∧
        ((countCommit a c).commits_per_day.map Prod.fst).Nodup := by
    intro a c ha
    rw [countCommit_coding_days, countCommit_cpd, cpdKeysOf_bumpCount, ha.1]
    exact ⟨rfl, nodup_keys_bumpCount _ _ _ ha.2⟩
  have key : e.2.coding_days = cpdKeysOf e.2.commits_per_day ∧
      (e.2.commits_per_day.map Prod.fst).Nodup := by
    rcases hm with hm | rfl
    · exact runBranches_pres
        (fun a => a.coding_days = cpdKeysOf a.commits_per_day ∧
          (a.commits_per_day.map Prod.fst).Nodup) hce hc fetches ∅ m hm e he
    · have hm2 : ∀ a b : UserActivity,
          (a.coding_days = cpdKeysOf a.commits_per_day ∧
            (a.commits_per_day.map Prod.fst).Nodup) →
          (b.coding_days = cpdKeysOf b.commits_per_day ∧
            (b.commits_per_day.map Prod.fst).Nodup) →
          (mergeActivity a b).coding_days =
              cpdKeysOf (mergeActivity a b).commits_per_day ∧
            ((mergeActivity a b).commits_per_day.map Prod.fst).Nodup := by
        intro a b ha hb
        constructor
        · show a.coding_days ∪ b.coding_days = _
          rw [ha.1, hb.1]
          exact (cpdKeysOf_foldl_bump b.commits_per_day a.commits_per_day).symm
        · exact nodup_keys_foldl_bump b.commits_per_day a.commits_per_day ha.2
      have hme : ∀ b : UserActivity,
          (b.coding_days = cpdKeysOf b.commits_per_day ∧
            (b.commits_per_day.map Prod.fst).Nodup) →
          (mergeActivity emptyActivity b).coding_days =
              cpdKeysOf (mergeActivity emptyActivity b).commits_per_day ∧
            ((mergeActivity emptyActivity b).commits_per_day.map Prod.fst).Nodup := by
        intro b hb
        refine hm2 emptyActivity b ⟨?_, ?_⟩ hb
        · simp [emptyActivity, cpdKeysOf]
        · simp [emptyActivity]
      exact mergeMaps_pres
        (fun a => a.coding_days = cpdKeysOf a.commits_per_day ∧
          (a.commits_per_day.map Prod.fst).Nodup) hme hm2 (runBranches fetches ∅).1
        (runBranches_pres
          (fun a => a.coding_days = cpdKeysOf a.commits_per_day ∧
            (a.commits_per_day.map Prod.fst).Nodup) hce hc fetches ∅) e he
  refine ⟨?_, key.1⟩
  rw [key.1, cpdKeysOf, List.toFinset_card_of_nodup key.2]

/-- C6 witness: the coding-days and key-count equality evaluated on the
concrete partial map of a one-commit branch. -/
theorem C6_witness :
    (exPartial ∈ (runBranches exFetches ∅).1 ∨ exPartial = get_all_user_metrics exFetches) ∧
    exEntry ∈ exPartial ∧
    exEntry.2.coding_days.card = (exEntry.2.commits_per_day.map Prod.fst).length ∧
    exEntry.2.coding_days = cpdKeysOf exEntry.2.commits_per_day :=
  ⟨Or.inl (by decide), by decide,
    C6_coding_days_match_cpd_keys exFetches exPartial exEntry (Or.inl (by decide)) (by decide)⟩

theorem updateUser_totalCommits (m : ActivityMap) (u : String)
    (f : UserActivity → UserActivity) (k : Nat)
    (hf : ∀ a, (f a).commits = a.commits + k) :
    totalCommitsMap (updateUser m u f) = totalCommitsMap m + k := by
  induction m with
  | nil =>
    simp only [updateUser, totalCommitsMap, hf emptyActivity]
    simp [emptyActivity]
  | cons x rest ih =>
    by_cases hx : x.1 = u
    · simp only [updateUser, if_pos hx, totalCommitsMap, hf x.2]
      omega
    · simp only [updateUser, if_neg hx, totalCommitsMap, ih]
      omega

theorem processCommits_snd (cs : List CommitRecord) :
    ∀ (acc : ActivityMap) (p : Finset String),
      (processCommits cs acc p).2 = branchShas cs p := by
  induction cs with
  | nil => intro acc p; rfl
  | cons c rest ih =>
    intro acc p
    by_cases hmem : c.sha ∈ p
    · rw [processCommits, if_pos hmem, ih]
      simp [branchShas, List.foldl_cons, Finset.insert_eq_self.mpr hmem]
    · rw [processCommits, if_neg hmem, ih]
      simp [branchShas, List.foldl_cons]

theorem processCommits_totalCommits (cs : List CommitRecord) :
    ∀ (acc : ActivityMap) (p : Finset String),
      totalCommitsMap (processCommits cs acc p).1 + p.card =
        totalCommitsMap acc + ((processCommits cs acc p).2).card := by
  induction cs with
  | nil => intro acc p; rfl
  | cons c rest ih =>
    intro acc p
    by_cases hmem : c.sha ∈ p
    · rw [processCommits, if_pos hmem]
      exact ih acc p
    · rw [processCommits, if_neg hmem]
      have h1 := ih (updateUser acc (authorOf c) (fun a => countCommit a c))
        (insert c.sha p)
      have h2 : totalCommitsMap (updateUser acc (authorOf c)
          (fun a => countCommit a c)) = totalCommitsMap acc + 1 :=
        updateUser_totalCommits acc (authorOf c) _ 1 (fun a => countCommit_commits a c)
      have h3 : (insert c.sha p).card = p.card + 1 :=
        Finset.card_insert_of_not_mem hmem
      omega

/-- Sum of the commits counters over a list of partial maps. -/
def sumTotals : List ActivityMap → Nat
  | [] => 0
  | m :: rest => totalCommitsMap m + sumTotals rest

theorem runBranches_totals (fetches : List (Option (List CommitRecord))) :
    ∀ p : Finset String,
      (runBranches fetches p).2 = allShas fetches p ∧
      sumTotals (runBranches fetches p).1 + p.card = ((runBranches fetches p).2).card := by
  induction fetches with
  | nil =>
    intro p
    exact ⟨rfl, by simp [runBranches, sumTotals, totalCommitsMap]⟩
  | cons f rest ih =>
    intro p
    cases f with
    | none =>
      have h := ih p
      constructor
      · simp only [runBranches, process_branch, allShas]
        exact h.1
      · simp only [runBranches, process_branch, sumTotals, totalCommitsMap]
        have := h.2
        omega
    | some cs =>
      have h := ih (processCommits cs [] p).2
      have hc := processCommits_totalCommits cs [] p
      have hs := processCommits_snd cs [] p
      constructor
      · simp only [runBranches, process_branch, allShas]
        rw [h.1, hs]
      · simp only [runBranches, process_branch, sumTotals]
        have h2 := h.2
        simp only [totalCommitsMap] at hc
        omega

theorem mergeUser_totalCommits (g : ActivityMap) (u : String) (b : UserActivity) :
    totalCommitsMap (mergeUser g u b) = totalCommitsMap g + b.commits := by
  unfold mergeUser
  exact updateUser_totalCommits g u _ b.commits (fun a => rfl)

theorem mergeInto_totalCommits (part : ActivityMap) :
    ∀ g : ActivityMap,
      totalCommitsMap (mergeInto g part) = totalCommitsMap g + totalCommitsMap part := by
  induction part with
  | nil => intro g; simp [mergeInto, totalCommitsMap]
  | cons x rest ih =>
    intro g
    show totalCommitsMap ((x :: rest).foldl (fun g e => mergeUser g e.1 e.2) g) = _
    rw [List.foldl_cons]
    have h := ih (mergeUser g x.1 x.2)
    rw [mergeInto] at h
    rw [h, mergeUser_totalCommits]
    simp only [totalCommitsMap]
    omega

theorem mergeMaps_totalCommits (parts : List ActivityMap) :
    totalCommitsMap (mergeMaps parts) = sumTotals parts := by
  have key : ∀ (ps : List ActivityMap) (g : ActivityMap),
      totalCommitsMap (ps.foldl mergeInto g) = totalCommitsMap g + sumTotals ps := by
    intro ps
    induction ps with
    | nil => intro g; simp [sumTotals]
    | cons q rest ih =>
      intro g
      rw [List.foldl_cons, ih, mergeInto_totalCommits]
      simp only [sumTotals]
      omega
  have h := key parts []
  simpa [mergeMaps, totalCommitsMap] using h

/-- C1 amended: under the interleaving-free (sequential) execution of
the branch workers, every commit is counted exactly once however many
branches it appears on: the total commit count of the merged global map
equals the number of distinct commit shas across all branch fetches, so
a commit on two or more branches contributes one occurrence to the
merged totals. -/
theorem C1_sequential_exactly_once (fetches : List (Option (List CommitRecord))) :
    totalCommitsMap (get_all_user_metrics fetches) = (allShas fetches ∅).card := by
  have h := runBranches_totals fetches ∅
  rw [get_all_user_metrics, mergeMaps_totalCommits, ← h.1]
  have h2 := h.2
  simpa using h2

/-- Canonical semantic reading of one user's activity: the fields a
Python comparison of the produced dict would see, with commits_per_day
read as its per-date counts and its key set. Two activity values with
the same CanAct are the same dict value. -/
@[ext]
structure CanAct where
  commits : Nat
  files : Finset String
  la : Nat
  lr : Nat
  days : Finset Int
  cpdFun : Int → Nat
  cpdKeys : Finset Int

instance : Zero CanAct := ⟨⟨0, ∅, 0, 0, ∅, fun _ => 0, ∅⟩⟩

instance : Add CanAct :=
  ⟨fun a b =>
    ⟨a.commits + b.commits, a.files ∪ b.files, a.la + b.la, a.lr + b.lr,
      a.days ∪ b.days, fun d => a.cpdFun d + b.cpdFun d, a.cpdKeys ∪ b.cpdKeys⟩⟩

@[simp] theorem CanAct.add_commits (a b : CanAct) :
    (a + b).commits = a.commits + b.commits := rfl

@[simp] theorem CanAct.add_files (a b : CanAct) : (a + b).files = a.files ∪ b.files := rfl

@[simp] theorem CanAct.add_la (a b : CanAct) : (a + b).la = a.la + b.la := rfl

@[simp] theorem CanAct.add_lr (a b : CanAct) : (a + b).lr = a.lr + b.lr := rfl

@[simp] theorem CanAct.add_days (a b : CanAct) : (a + b).days = a.days ∪ b.days := rfl

@[simp] theorem CanAct.add_cpdFun (a b : CanAct) (d : Int) :
    (a + b).cpdFun d = a.cpdFun d + b.cpdFun d := rfl

@[simp] theorem CanAct.add_cpdKeys (a b : CanAct) :
    (a + b).cpdKeys = a.cpdKeys ∪ b.cpdKeys := rfl

@[simp] theorem CanAct.zero_commits : (0 : CanAct).commits = 0 := rfl

@[simp] theorem CanAct.zero_files : (0 : CanAct).files = ∅ := rfl

@[simp] theorem CanAct.zero_la : (0 : CanAct).la = 0 := rfl

@[simp] theorem CanAct.zero_lr : (0 : CanAct).lr = 0 := rfl

@[simp] theorem CanAct.zero_days : (0 : CanAct).days = ∅ := rfl

@[simp] theorem CanAct.zero_cpdFun (d : Int) : (0 : CanAct).cpdFun d = 0 := rfl

@[simp] theorem CanAct.zero_cpdKeys : (0 : CanAct).cpdKeys = ∅ := rfl

instance : AddCommMonoid CanAct where
  add := (· + ·)
  zero := 0
  add_assoc a b c := by
    ext <;> simp [Nat.add_assoc, Finset.union_assoc]
  zero_add a := by ext <;> simp
  add_zero a := by ext <;> simp
  add_comm a b := by
    ext <;> simp [Nat.add_comm, Finset.union_comm]
  nsmul := nsmulRec

/-- Semantic reading of one UserActivity value. -/
def actSem (a : UserActivity) : CanAct :=
  { commits := a.commits, files := a.files_changed, la := a.lines_added,
    lr := a.lines_removed, days := a.coding_days,
    cpdFun := cpdCount a.commits_per_day, cpdKeys := cpdKeysOf a.commits_per_day }

/-- Semantic reading of an activity map at one user: the sum of the
semantics of the entries carrying that user. On maps with distinct
keys, the maps the program builds, this is the dict entry for the user
(and 0 when absent). -/
def mapSem : ActivityMap → String → CanAct
  | [], _ => 0
  | e :: rest, u => (if e.1 = u then actSem e.2 else 0) + mapSem rest u

theorem actSem_empty : actSem emptyActivity = 0 := by
  ext d
  all_goals simp [actSem, emptyActivity, cpdCount, cpdKeysOf]

theorem actSem_merge (a b : UserActivity) :
    actSem (mergeActivity a b) = actSem a + actSem b := by
  ext d
  all_goals
    simp [actSem, mergeActivity, cpdCount_foldl_bump, cpdKeysOf_foldl_bump]

theorem mapSem_mergeUser (g : ActivityMap) (u : String) (b : UserActivity)
    (q : String) :
    mapSem (mergeUser g u b) q = mapSem g q + (if u = q then actSem b else 0) := by
  induction g with
  | nil =>
    simp only [mergeUser, updateUser, mapSem]
    rw [actSem_merge, actSem_empty]
    by_cases hq : u = q <;> simp [hq]
  | cons x rest ih =>
    simp only [mergeUser] at ih ⊢
    by_cases hx : x.1 = u
    · subst hx
      simp only [updateUser, if_pos rfl, mapSem]
      rw [actSem_merge]
      by_cases hq : x.1 = q
      all_goals simp [hq]
      all_goals abel
    · simp only [updateUser, if_neg hx, mapSem, ih]
      abel

theorem mapSem_mergeInto (part : ActivityMap) :
    ∀ (g : ActivityMap) (q : String),
      mapSem (mergeInto g part) q = mapSem g q + mapSem part q := by
  induction part with
  | nil => intro g q; simp [mergeInto, mapSem]
  | cons x rest ih =>
    intro g q
    show mapSem ((x :: rest).foldl (fun g e => mergeUser g e.1 e.2) g) q = _
    rw [List.foldl_cons]
    have h := ih (mergeUser g x.1 x.2) q
    rw [mergeInto] at h
    rw [h, mapSem_mergeUser]
    simp only [mapSem]
    abel

theorem mapSem_mergeMaps (parts : List ActivityMap) (q : String) :
    mapSem (mergeMaps parts) q = (parts.map (fun p => mapSem p q)).sum := by
  have key : ∀ (ps : List ActivityMap) (g : ActivityMap),
      mapSem (ps.foldl mergeInto g) q =
        mapSem g q + (ps.map (fun p => mapSem p q)).sum := by
    intro ps
    induction ps with
    | nil => intro g; simp
    | cons p rest ih =>
      intro g
      rw [List.foldl_cons, ih, mapSem_mergeInto]
      rw [List.map_cons, List.sum_cons]
      abel
  have h := key parts []
  simpa [mergeMaps, mapSem] using h

/-- C7: merging a collection of branch-partial activity maps yields the
same global map whatever the merge order: for every permutation of the
collection and every user, the merged map carries the same commits
total, files_changed set, lines_added, lines_removed, coding_days set,
and commits_per_day counts and key set for that user; the per-field
combination is commutative and associative. -/
theorem C7_merge_order_irrelevant (parts parts2 : List ActivityMap)
    (h : parts.Perm parts2) (u : String) :
    mapSem (mergeMaps parts) u = mapSem (mergeMaps parts2) u := by
  rw [mapSem_mergeMaps, mapSem_mergeMaps]
  exact List.Perm.sum_eq (h.map (fun p => mapSem p u))

/-- Second concrete commit, with file stats, for the C7 witness. -/
def exCommitB : CommitRecord :=
  { sha := "b2", author := some "bob", date := 4,
    files := some [{ filename := "m.py", additions := some 2, deletions := some 1 }] }

/-- Second concrete branch-partial map for the C7 witness. -/
def exPartB : ActivityMap := [("bob", countCommit emptyActivity exCommitB)]

/-- C7 witness: swapping the two concrete partial maps leaves the merged
map's reading at a user unchanged. -/
theorem C7_witness :
    List.Perm [exPartial, exPartB] [exPartB, exPartial] ∧
    mapSem (mergeMaps [exPartial, exPartB]) "alice" =
      mapSem (mergeMaps [exPartB, exPartial]) "alice" :=
  ⟨List.Perm.swap exPartB exPartial [],
    C7_merge_order_irrelevant [exPartial, exPartB] [exPartB, exPartial]
      (List.Perm.swap exPartB exPartial []) "alice"⟩
